import Mathlib

/-
Verification of the embroidery-converter bot (src/bot.py) against its
natural-language specification.

Shallow embedding conventions:
- A file's raw contents are a `List Nat` of byte values (each value below 256
  for real files; the decoders are total on all naturals).
- Python exceptions that are caught and turned into a `None` return are
  modelled with `Option`: `none` means the Python function raised (and the
  caller logged the error) or returned `None`.
- The external `pyembroidery` library is a collaborator that the repository
  calls but does not contain; its pattern object and per-format encoder are
  modelled from the spec's description of the collaborator interface.
-/

/-- One stitch event of a pattern: a coordinate pair plus an optional command
tag (a pyembroidery stitch tuple `(x, y)` or `(x, y, command)`). -/
structure Stitch where
  x : Int
  y : Int
  cmd : Option Int
deriving DecidableEq, Repr

/-- Modelled from the spec: the external codec library's `EmbPattern` object,
reduced to the one field the repository reads — the ordered stitch list. -/
structure EmbPattern where
  stitches : List Stitch
deriving DecidableEq, Repr

/-- Modelled from the spec: `EmbPattern.add_stitch_absolute(x, y)` appends one
absolute-position stitch event with no command tag. -/
def EmbPattern.add_stitch_absolute (p : EmbPattern) (x y : Int) : EmbPattern :=
  ⟨p.stitches ++ [⟨x, y, none⟩]⟩

/-- `struct.unpack('<h', bytes([b0, b1]))[0]`: little-endian signed 16-bit. -/
def decodeI16 (b0 b1 : Nat) : Int :=
  let v : Nat := b0 + 256 * b1
  if v < 32768 then (v : Int) else (v : Int) - 65536

/-- The loop body of `read_emb` (bot.py lines 48-51): read `n` records of
four bytes each (two little-endian int16 values); any short read raises
`struct.error`, modelled as `none`. -/
def readStitches : Nat → List Nat → Option (List (Int × Int))
  | 0, _ => some []
  | n + 1, b0 :: b1 :: b2 :: b3 :: rest =>
    match readStitches n rest with
    | some tl => some ((decodeI16 b0 b1, decodeI16 b2 b3) :: tl)
    | none => none
  | _ + 1, _ => none

/-- The byte values of the magic literal `b'EMB1'`. -/
def magicEMB1 : List Nat := [69, 77, 66, 49]

/-- `read_emb` (bot.py lines 39-58): check the 4-byte magic, read a
little-endian uint32 stitch count, read that many int16 coordinate pairs,
and build a pattern by `add_stitch_absolute`; every exception is caught and
turned into `None`. -/
def read_emb (data : List Nat) : Option EmbPattern :=
  if data.take 4 = magicEMB1 then
    match data.drop 4 with
    | c0 :: c1 :: c2 :: c3 :: body =>
      match readStitches (c0 + 256 * c1 + 65536 * c2 + 16777216 * c3) body with
      | some sts =>
        some (sts.foldl (fun p q => p.add_stitch_absolute q.1 q.2) ⟨[]⟩)
      | none => none
    | _ => none
  else none

/-- Little-endian 4-byte encoding of a natural number below `2^32`. -/
def encU32 (n : Nat) : List Nat :=
  [n % 256, n / 256 % 256, n / 65536 % 256, n / 16777216 % 256]

/-- Little-endian 2-byte encoding of a signed 16-bit integer. -/
def encI16 (z : Int) : List Nat :=
  [(z % 65536).toNat % 256, (z % 65536).toNat / 256]

/-- Concatenated `(int16 x, int16 y)` records for a list of pairs. -/
def encPairs (ps : List (Int × Int)) : List Nat :=
  ps.flatMap (fun p => encI16 p.1 ++ encI16 p.2)

/-- A coordinate fits in a signed 16-bit field. -/
def fitsI16 (z : Int) : Prop := -32768 ≤ z ∧ z < 32768

instance (z : Int) : Decidable (fitsI16 z) := by
  unfold fitsI16; infer_instance

lemma decodeI16_encI16 (z : Int) (h : fitsI16 z) :
    decodeI16 (encI16 z)[0]! (encI16 z)[1]! = z := by
  rcases h with ⟨h1, h2⟩
  simp only [encI16, decodeI16, List.getElem!_cons_zero, List.getElem!_cons_succ]
  split <;> omega

lemma readStitches_encPairs (ps : List (Int × Int)) (trailing : List Nat)
    (hb : ∀ p ∈ ps, fitsI16 p.1 ∧ fitsI16 p.2) :
    readStitches ps.length (encPairs ps ++ trailing) = some ps := by
  induction ps with
  | nil => simp [readStitches]
  | cons p tl ih =>
    obtain ⟨⟨h1, h2⟩, h3, h4⟩ := hb p (List.mem_cons_self p tl)
    have ihtl := ih (fun q hq => hb q (List.mem_cons_of_mem p hq))
    simp only [encPairs, List.flatMap_cons, encI16, List.length_cons,
      List.cons_append, List.nil_append, List.append_assoc]
    show readStitches (tl.length + 1) _ = _
    simp only [readStitches]
    simp only [encPairs, encI16, List.cons_append, List.nil_append] at ihtl
    rw [ihtl]
    have ex : decodeI16 ((p.1 % 65536).toNat % 256) ((p.1 % 65536).toNat / 256) = p.1 := by
      simp only [decodeI16]; split <;> omega
    have ey : decodeI16 ((p.2 % 65536).toNat % 256) ((p.2 % 65536).toNat / 256) = p.2 := by
      simp only [decodeI16]; split <;> omega
    rw [ex, ey]

lemma foldl_add_stitch (sts : List (Int × Int)) :
    sts.foldl (fun p q => p.add_stitch_absolute q.1 q.2) ⟨[]⟩
      = EmbPattern.mk (sts.map (fun q => ⟨q.1, q.2, none⟩)) := by
  have gen : ∀ (l : List (Int × Int)) (acc : List Stitch),
      l.foldl (fun p q => p.add_stitch_absolute q.1 q.2) ⟨acc⟩
        = EmbPattern.mk (acc ++ l.map (fun q => ⟨q.1, q.2, none⟩)) := by
    intro l
    induction l with
    | nil =>
      intro acc
      simp only [List.foldl_nil, List.map_nil, List.append_nil]
    | cons q tl ih =>
      intro acc
      simp only [List.foldl_cons]
      rw [show (EmbPattern.add_stitch_absolute ⟨acc⟩ q.1 q.2)
          = EmbPattern.mk (acc ++ [⟨q.1, q.2, none⟩]) from rfl, ih]
      simp
  simpa using gen sts []

/-- The well-formed buffer for count `n` and coordinate list `ps`:
magic, little-endian uint32 count, then the records. -/
def embBuffer (n : Nat) (ps : List (Int × Int)) : List Nat :=
  magicEMB1 ++ encU32 n ++ encPairs ps

lemma read_emb_embBuffer (ps : List (Int × Int)) (trailing : List Nat)
    (hn : ps.length < 4294967296)
    (hb : ∀ p ∈ ps, fitsI16 p.1 ∧ fitsI16 p.2) :
    read_emb (embBuffer ps.length ps ++ trailing)
      = some ⟨ps.map (fun q => ⟨q.1, q.2, none⟩)⟩ := by
  have hcount : ps.length % 256 + 256 * (ps.length / 256 % 256)
      + 65536 * (ps.length / 65536 % 256)
      + 16777216 * (ps.length / 16777216 % 256) = ps.length := by omega
  simp only [embBuffer, magicEMB1, encU32, List.cons_append, List.nil_append,
    read_emb, List.take_succ_cons, List.take_zero, List.drop_succ_cons,
    List.drop_zero, List.append_assoc]
  rw [hcount, readStitches_encPairs ps trailing hb]
  simp only [if_true, foldl_add_stitch]

lemma readStitches_short (n : Nat) : ∀ bs : List Nat,
    bs.length < 4 * n → readStitches n bs = none := by
  induction n with
  | zero => intro bs h; omega
  | succ k ih =>
    intro bs h
    match bs with
    | [] => rfl
    | [b0] => rfl
    | [b0, b1] => rfl
    | [b0, b1, b2] => rfl
    | b0 :: b1 :: b2 :: b3 :: rest =>
      simp only [readStitches]
      rw [ih rest (by simp only [List.length_cons] at h; omega)]

/-- C1: a buffer that is exactly the magic `EMB1`, a little-endian uint32
count `N`, and `N` complete little-endian int16 coordinate pairs is decoded
by `read_emb` into a pattern of exactly `N` stitch events whose coordinates
are the encoded pairs, in buffer order. -/
theorem read_emb_valid_buffer (ps : List (Int × Int))
    (hn : ps.length < 4294967296)
    (hb : ∀ p ∈ ps, fitsI16 p.1 ∧ fitsI16 p.2) :
    ∃ pat : EmbPattern, read_emb (embBuffer ps.length ps) = some pat ∧
      pat.stitches.length = ps.length ∧
      pat.stitches = ps.map (fun q => ⟨q.1, q.2, none⟩) := by
  refine ⟨⟨ps.map (fun q => ⟨q.1, q.2, none⟩)⟩, ?_, by simp, rfl⟩
  simpa using read_emb_embBuffer ps [] hn hb

theorem read_emb_valid_buffer_witness :
    (([((10 : Int), (20 : Int)), (-5, 15)] : List (Int × Int)).length < 4294967296
      ∧ ∀ p ∈ [((10 : Int), (20 : Int)), (-5, 15)], fitsI16 p.1 ∧ fitsI16 p.2) ∧
    ∃ pat : EmbPattern,
      read_emb (embBuffer 2 [(10, 20), (-5, 15)]) = some pat ∧
      pat.stitches.length = 2 ∧
      pat.stitches = [⟨10, 20, none⟩, ⟨-5, 15, none⟩] :=
  ⟨⟨by decide, by decide⟩,
   read_emb_valid_buffer [(10, 20), (-5, 15)] (by decide) (by decide)⟩

/-- C2: `read_emb` fails (returns `none`) on every buffer whose first four
bytes are not the magic `EMB1`, and on every buffer that declares `N`
records but is truncated before the `N` four-byte records are complete; it
never returns a partially-filled pattern. -/
theorem read_emb_rejects_invalid :
    (∀ data : List Nat, data.take 4 ≠ magicEMB1 → read_emb data = none) ∧
    (∀ (n : Nat) (rest : List Nat), n < 4294967296 → rest.length < 4 * n →
      read_emb (magicEMB1 ++ encU32 n ++ rest) = none) := by
  constructor
  · intro data h
    simp only [read_emb, if_neg h]
  · intro n rest hn hlen
    have hcount : n % 256 + 256 * (n / 256 % 256) + 65536 * (n / 65536 % 256)
        + 16777216 * (n / 16777216 % 256) = n := by omega
    simp only [magicEMB1, encU32, List.cons_append, List.nil_append, read_emb,
      List.take_succ_cons, List.take_zero, List.drop_succ_cons, List.drop_zero]
    rw [hcount, readStitches_short n rest hlen]
    simp

theorem read_emb_rejects_invalid_witness :
    read_emb [0, 1, 2, 3, 4, 5, 6, 7] = none ∧
    read_emb (magicEMB1 ++ encU32 2 ++ [9, 9, 9]) = none :=
  ⟨read_emb_rejects_invalid.1 [0, 1, 2, 3, 4, 5, 6, 7] (by decide),
   read_emb_rejects_invalid.2 2 [9, 9, 9] (by decide) (by decide)⟩

/-- C10: surplus bytes after the `N` declared records are silently ignored:
`read_emb` still succeeds and returns exactly the `N` encoded stitches. -/
theorem read_emb_ignores_trailing (ps : List (Int × Int)) (trailing : List Nat)
    (hn : ps.length < 4294967296)
    (hb : ∀ p ∈ ps, fitsI16 p.1 ∧ fitsI16 p.2) :
    read_emb (embBuffer ps.length ps ++ trailing)
      = some ⟨ps.map (fun q => ⟨q.1, q.2, none⟩)⟩ ∧
    (ps.map (fun q => (⟨q.1, q.2, none⟩ : Stitch))).length = ps.length :=
  ⟨read_emb_embBuffer ps trailing hn hb, by simp⟩

theorem read_emb_ignores_trailing_witness :
    read_emb (embBuffer 1 [((7 : Int), (-3 : Int))] ++ [255, 0, 42])
      = some ⟨[⟨7, -3, none⟩]⟩ :=
  (read_emb_ignores_trailing [(7, -3)] [255, 0, 42] (by decide) (by decide)).1

/-
Preview renderer (bot.py `generate_preview`, lines 95-147): segmentation of
the stitch list at color-change commands, palette cycling, and the drawing
decisions (one polyline per non-empty segment, start/end markers).
-/

/-- The preset palette of `generate_preview` (bot.py line 103). -/
def colors : List String :=
  ["blue", "green", "red", "orange", "purple", "brown", "cyan"]

lemma colors_length : colors.length = 7 := rfl

/-- The color-change command constant (bot.py lines 15-19: the fallback
value `0x03` is used when the library does not export the constant; the
segmentation logic is independent of the concrete value). -/
def STITCH_COLOR_CHANGE : Int := 3

/-- The segmentation loop of `generate_preview` (bot.py lines 107-124):
walk the stitch list; on a color-change command close the current segment
(dropping it when empty) and advance the palette index modulo the palette
size; otherwise append the `(x, -y)` point to the current segment; after
the loop close any non-empty remaining segment. -/
def segLoop (segments : List (List (Int × Int) × String))
    (current_segment : List (Int × Int)) (color_index : Nat)
    (current_color : String) : List Stitch → List (List (Int × Int) × String)
  | [] =>
    if current_segment ≠ [] then segments ++ [(current_segment, current_color)]
    else segments
  | s :: rest =>
    if s.cmd = some STITCH_COLOR_CHANGE then
      let segments1 :=
        if current_segment ≠ [] then segments ++ [(current_segment, current_color)]
        else segments
      let i := (color_index + 1) % colors.length
      segLoop segments1 [] i (colors.getD i "") rest
    else
      segLoop segments (current_segment ++ [(s.x, -s.y)]) color_index current_color rest

/-- The segment list `generate_preview` computes for a pattern's stitches
(initial state: no segments, empty current segment, palette index 0). -/
def segmentsOf (sts : List Stitch) : List (List (Int × Int) × String) :=
  segLoop [] [] 0 (colors.getD 0 "") sts

/-- Spec-side description: the stitch list split at color-change events into
point groups (`k` color-change events give `k + 1` groups; a color-change
event contributes no point of its own; every other event contributes its
`(x, -y)` point). -/
def specGroups : List Stitch → List (List (Int × Int))
  | [] => [[]]
  | s :: rest =>
    if s.cmd = some STITCH_COLOR_CHANGE then [] :: specGroups rest
    else
      match specGroups rest with
      | g :: gs => ((s.x, -s.y) :: g) :: gs
      | [] => [[(s.x, -s.y)]]

/-- The palette color of the group with absolute index `i`: the fixed
palette is cycled, wrapping modulo its length. -/
def colorAt (i : Nat) : String := colors.getD (i % colors.length) ""

/-- Spec-side description: color group `i` with `colorAt i`, skip empty
groups, keep the remaining groups in order. -/
def specSegsFrom (i : Nat) : List (List (Int × Int)) → List (List (Int × Int) × String)
  | [] => []
  | g :: gs => (if g = [] then [] else [(g, colorAt i)]) ++ specSegsFrom (i + 1) gs

/-- Number of color-change events of a stitch list. -/
def colorChangeCount (sts : List Stitch) : Nat :=
  sts.countP (fun s => s.cmd == some STITCH_COLOR_CHANGE)

lemma specGroups_exists_cons (sts : List Stitch) :
    ∃ g gs, specGroups sts = g :: gs := by
  cases sts with
  | nil => exact ⟨[], [], rfl⟩
  | cons s rest =>
    simp only [specGroups]
    by_cases h : s.cmd = some STITCH_COLOR_CHANGE
    · exact ⟨[], specGroups rest, by rw [if_pos h]⟩
    · rw [if_neg h]
      rcases hrec : specGroups rest with _ | ⟨g, gs⟩
      · exact ⟨[(s.x, -s.y)], [], rfl⟩
      · exact ⟨(s.x, -s.y) :: g, gs, rfl⟩

lemma specGroups_length (sts : List Stitch) :
    (specGroups sts).length = colorChangeCount sts + 1 := by
  induction sts with
  | nil => rfl
  | cons s rest ih =>
    simp only [specGroups, colorChangeCount, List.countP_cons]
    by_cases h : s.cmd = some STITCH_COLOR_CHANGE
    · simp only [if_pos h, List.length_cons, ih, colorChangeCount]
      simp [h]
    · obtain ⟨g, gs, hg⟩ := specGroups_exists_cons rest
      rw [if_neg h, hg]
      rw [hg] at ih
      simp only [List.length_cons] at ih ⊢
      simp only [colorChangeCount] at ih
      simp [ih, h]

lemma specSegsFrom_congr (gs : List (List (Int × Int))) :
    ∀ i j, i % colors.length = j % colors.length →
      specSegsFrom i gs = specSegsFrom j gs := by
  induction gs with
  | nil => intro i j _; rfl
  | cons g tl ih =>
    intro i j h
    have hc : colorAt i = colorAt j := by unfold colorAt; rw [h]
    have h7 : colors.length = 7 := colors_length
    rw [h7] at h
    simp only [specSegsFrom, hc, ih (i + 1) (j + 1) (by rw [h7]; omega)]

lemma segLoop_spec (sts : List Stitch) :
    ∀ (segs : List (List (Int × Int) × String)) (cur : List (Int × Int)) (i : Nat),
      i < colors.length →
      segLoop segs cur i (colorAt i) sts
        = segs
          ++ (if cur ++ (specGroups sts).headI = [] then []
              else [(cur ++ (specGroups sts).headI, colorAt i)])
          ++ specSegsFrom (i + 1) (specGroups sts).tail := by
  induction sts with
  | nil =>
    intro segs cur i _
    simp only [specGroups, List.headI, List.tail_cons, segLoop, List.append_nil,
      specSegsFrom]
    by_cases hc : cur = []
    · subst hc; simp
    · simp [hc]
  | cons s rest ih =>
    intro segs cur i hi
    obtain ⟨g, gs, hg⟩ := specGroups_exists_cons rest
    by_cases hcmd : s.cmd = some STITCH_COLOR_CHANGE
    · simp only [segLoop, if_pos hcmd]
      have hi1 : (i + 1) % colors.length < colors.length :=
        Nat.mod_lt _ (by rw [colors_length]; omega)
      have hcol : colors.getD ((i + 1) % colors.length) ""
          = colorAt ((i + 1) % colors.length) := by
        unfold colorAt
        rw [Nat.mod_eq_of_lt hi1]
      rw [hcol, ih _ [] _ hi1]
      simp only [specGroups, if_pos hcmd, List.headI, List.tail_cons, hg,
        List.nil_append, List.append_nil]
      have hcong : specSegsFrom (i + 1) (g :: gs)
          = specSegsFrom ((i + 1) % colors.length) (g :: gs) :=
        specSegsFrom_congr _ _ _ (by rw [colors_length]; omega)
      rw [hcong]
      simp only [specSegsFrom]
      by_cases hc : cur = []
      · subst hc; simp
      · simp only [if_neg hc, List.append_assoc]
        simp [hc]
    · simp only [segLoop, if_neg hcmd]
      rw [ih _ (cur ++ [(s.x, -s.y)]) i hi]
      simp only [specGroups, if_neg hcmd, hg, List.headI, List.tail_cons]
      have hne1 : (cur ++ [(s.x, -s.y)]) ++ g ≠ [] := by simp
      have hne2 : cur ++ (s.x, -s.y) :: g ≠ [] := by simp
      rw [if_neg hne1, if_neg hne2]
      simp [List.append_assoc]

lemma segmentsOf_eq_spec (sts : List Stitch) :
    segmentsOf sts = specSegsFrom 0 (specGroups sts) := by
  obtain ⟨g, gs, hg⟩ := specGroups_exists_cons sts
  have h0 : colors.getD 0 "" = colorAt 0 := rfl
  have h := segLoop_spec sts [] [] 0 (by rw [colors_length]; omega)
  unfold segmentsOf
  rw [h0, h, hg]
  simp only [List.headI, List.tail_cons, List.nil_append, specSegsFrom]

lemma specGroups_no_change (sts : List Stitch)
    (h : ∀ s ∈ sts, s.cmd ≠ some STITCH_COLOR_CHANGE) :
    specGroups sts = [sts.map (fun s => (s.x, -s.y))] := by
  induction sts with
  | nil => rfl
  | cons s rest ih =>
    have hs := h s (List.mem_cons_self s rest)
    have hrest := ih (fun q hq => h q (List.mem_cons_of_mem s hq))
    simp only [specGroups, if_neg hs, hrest, List.map_cons]

lemma colorChangeCount_zero (sts : List Stitch)
    (h : colorChangeCount sts = 0) :
    ∀ s ∈ sts, s.cmd ≠ some STITCH_COLOR_CHANGE := by
  intro s hs hcmd
  have : 0 < colorChangeCount sts := by
    unfold colorChangeCount
    apply List.countP_pos_iff.mpr
    exact ⟨s, hs, by simp [hcmd]⟩
  omega

lemma specSegsFrom_mem_ne_nil (gs : List (List (Int × Int))) :
    ∀ (i : Nat) (seg : List (Int × Int) × String),
      seg ∈ specSegsFrom i gs → seg.1 ≠ [] := by
  induction gs with
  | nil => intro i seg hseg; simp [specSegsFrom] at hseg
  | cons g tl ih =>
    intro i seg hseg
    simp only [specSegsFrom, List.mem_append] at hseg
    rcases hseg with hseg | hseg
    · by_cases hg : g = []
      · rw [if_pos hg] at hseg; simp at hseg
      · rw [if_neg hg] at hseg
        simp only [List.mem_singleton] at hseg
        rw [hseg]
        exact hg
    · exact ih (i + 1) seg hseg

lemma specSegsFrom_length (gs : List (List (Int × Int))) :
    ∀ i : Nat, (specSegsFrom i gs).length
      = (gs.filter (fun g => !g.isEmpty)).length := by
  induction gs with
  | nil => intro i; rfl
  | cons g tl ih =>
    intro i
    simp only [specSegsFrom, List.length_append, ih (i + 1), List.filter_cons]
    by_cases hg : g = []
    · subst hg; simp
    · rw [if_neg hg]
      have : g.isEmpty = false := by
        cases g with
        | nil => exact absurd rfl hg
        | cons a l => rfl
      simp [this, Nat.add_comm]

lemma specSegsFrom_all_empty (gs : List (List (Int × Int)))
    (h : ∀ g ∈ gs, g = []) : ∀ i : Nat, specSegsFrom i gs = [] := by
  induction gs with
  | nil => intro i; rfl
  | cons g tl ih =>
    intro i
    have hg := h g (List.mem_cons_self g tl)
    simp only [specSegsFrom, if_pos hg, List.nil_append]
    exact ih (fun q hq => h q (List.mem_cons_of_mem g hq)) (i + 1)

lemma specGroups_all_change (sts : List Stitch)
    (h : ∀ s ∈ sts, s.cmd = some STITCH_COLOR_CHANGE) :
    ∀ g ∈ specGroups sts, g = [] := by
  induction sts with
  | nil => intro g hg; simp only [specGroups, List.mem_singleton] at hg; exact hg
  | cons s rest ih =>
    intro g hg
    have hs := h s (List.mem_cons_self s rest)
    simp only [specGroups, if_pos hs, List.mem_cons] at hg
    rcases hg with hg | hg
    · exact hg
    · exact ih (fun q hq => h q (List.mem_cons_of_mem s hq)) g hg

/-- C3: the renderer's segment list is exactly the stitch list split at
color-change events, with the `(x, -y)` points of each group, empty groups
skipped, and group `i` colored with palette entry `i mod 7`; in particular a
pattern with no color-change event and at least one stitch yields exactly
one segment holding every point with y negated (in the first palette color),
and when no split group is empty exactly `k + 1` segments are produced for
`k` color-change events. -/
theorem generate_preview_palette (sts : List Stitch) :
    segmentsOf sts = specSegsFrom 0 (specGroups sts) ∧
    (specGroups sts).length = colorChangeCount sts + 1 ∧
    (colorChangeCount sts = 0 → sts ≠ [] →
      segmentsOf sts = [(sts.map (fun s => (s.x, -s.y)), "blue")]) ∧
    ((∀ g ∈ specGroups sts, g ≠ []) →
      (segmentsOf sts).length = colorChangeCount sts + 1) ∧
    (segmentsOf sts).length
      = ((specGroups sts).filter (fun g => !g.isEmpty)).length := by
  refine ⟨segmentsOf_eq_spec sts, specGroups_length sts, ?_, ?_, ?_⟩
  · intro h0 hne
    rw [segmentsOf_eq_spec sts,
      specGroups_no_change sts (colorChangeCount_zero sts h0)]
    have hmapne : sts.map (fun s => (s.x, -s.y)) ≠ [] := by
      cases sts with
      | nil => exact absurd rfl hne
      | cons a l => simp
    simp only [specSegsFrom, if_neg hmapne]
    rfl
  · intro hall
    rw [segmentsOf_eq_spec sts, specSegsFrom_length _ 0,
      List.filter_eq_self.mpr ?_, specGroups_length sts]
    intro g hg
    have := hall g hg
    cases g with
    | nil => exact absurd rfl this
    | cons a l => rfl
  · rw [segmentsOf_eq_spec sts, specSegsFrom_length _ 0]

theorem generate_preview_palette_witness :
    (colorChangeCount [(⟨1, 2, none⟩ : Stitch), ⟨3, 4, some 0⟩] = 0
      ∧ ([(⟨1, 2, none⟩ : Stitch), ⟨3, 4, some 0⟩] : List Stitch) ≠ []) ∧
    segmentsOf [⟨1, 2, none⟩, ⟨3, 4, some 0⟩] = [([(1, -2), (3, -4)], "blue")] :=
  ⟨⟨by decide, by decide⟩,
   (generate_preview_palette [⟨1, 2, none⟩, ⟨3, 4, some 0⟩]).2.2.1
     (by decide) (by decide)⟩

/-- The drawing decisions of `generate_preview` (bot.py lines 126-137):
one polyline per non-empty segment; a start marker at the first point of
the first segment and an end marker at the last point of the last segment,
each only when that segment exists and is non-empty. -/
structure RenderPlan where
  polylines : List (List (Int × Int) × String)
  startMarker : Option (Int × Int)
  endMarker : Option (Int × Int)
deriving DecidableEq, Repr

/-- What `generate_preview` draws for a stitch list. -/
def renderPlan (sts : List Stitch) : RenderPlan :=
  let segments := segmentsOf sts
  { polylines := segments.filter (fun sc => !sc.1.isEmpty)
    startMarker :=
      match segments with
      | [] => none
      | (g, _) :: _ =>
        match g with
        | [] => none
        | p :: _ => some p
    endMarker :=
      match segments.getLast? with
      | some (g, _) => g.getLast?
      | none => none }

/-- C8: every segment the renderer emits is non-empty (no empty trailing
segment is ever appended); a pattern consisting only of color-change events
yields no segments at all; and a pattern with zero stitches yields a drawing
with no polylines and no start/end markers. -/
theorem generate_preview_segments_nonempty (sts : List Stitch) :
    (∀ seg ∈ segmentsOf sts, seg.1 ≠ []) ∧
    ((∀ s ∈ sts, s.cmd = some STITCH_COLOR_CHANGE) → segmentsOf sts = []) ∧
    (sts = [] →
      (renderPlan sts).polylines = [] ∧
      (renderPlan sts).startMarker = none ∧
      (renderPlan sts).endMarker = none) := by
  refine ⟨?_, ?_, ?_⟩
  · intro seg hseg
    rw [segmentsOf_eq_spec sts] at hseg
    exact specSegsFrom_mem_ne_nil _ 0 seg hseg
  · intro hall
    rw [segmentsOf_eq_spec sts]
    exact specSegsFrom_all_empty _ (specGroups_all_change sts hall) 0
  · intro h
    subst h
    exact ⟨rfl, rfl, rfl⟩

theorem generate_preview_segments_nonempty_witness :
    ((∀ s ∈ [(⟨0, 0, some STITCH_COLOR_CHANGE⟩ : Stitch)],
        s.cmd = some STITCH_COLOR_CHANGE)
      ∧ segmentsOf [(⟨0, 0, some STITCH_COLOR_CHANGE⟩ : Stitch)] = [])
    ∧ (renderPlan [] = ⟨[], none, none⟩) :=
  ⟨⟨by decide,
    (generate_preview_segments_nonempty
      [(⟨0, 0, some STITCH_COLOR_CHANGE⟩ : Stitch)]).2.1 (by decide)⟩,
   by
    have h := (generate_preview_segments_nonempty ([] : List Stitch)).2.2 rfl
    cases hplan : renderPlan ([] : List Stitch) with
    | mk a b c =>
      rw [hplan] at h
      simp only at h
      rw [h.1, h.2.1, h.2.2]⟩

/-
Multi-format export (bot.py `export_all_formats`, lines 60-93).
The external pieces are modelled from the spec's collaborator contract:
`supported_formats()` is an arbitrary registry value passed in as a list of
entries, and the per-format encoder `write` is a success/failure oracle per
target extension (`encode(StitchPattern, targetExtension) -> bytes | failure`).
Python's `set(formats) - excluded_formats` iterates in an unspecified order;
the embedding determinizes it as first-occurrence order, which no claim
depends on.
-/

/-- The static denylist of bot.py line 65. -/
def excluded_formats : List String :=
  ["col", "edr", "gcode", "inf", "pmv", "csv", "json", "txt", "fxy", "new",
   "zxy", "tap", "10o", "bro", "max", "dat", "stc", "inb", "100", "stx",
   "jpx", "mit", "pcd", "gt", "shv", "pcs", "dsb", "emd", "pcq", "dsz",
   "exy", "hus", "phc", "pcm", "sew", "spx", "zhs", "ksm", "phb"]

/-- One entry of the codec registry as bot.py lines 69-77 inspects it: a
dict carrying an `extension` key contributes that value; a non-empty
list/tuple contributes `str` of its first element; anything else (a dict
without the key, an empty sequence, any other object) contributes nothing. -/
inductive RegEntry where
  | dictWithExt (ext : String)
  | seqFirst (ext : String)
  | other
deriving DecidableEq, Repr

/-- The extension-collection loop of bot.py lines 68-77. -/
def collectFormats (registry : List RegEntry) : List String :=
  registry.foldl
    (fun acc e =>
      match e with
      | .dictWithExt s => acc ++ [s]
      | .seqFirst s => acc ++ [s]
      | .other => acc) []

/-- Python `str.lower()` restricted to the ASCII mapping, which is all the
`ext.lower() == "emb"` comparison of bot.py line 83 can distinguish. -/
def pyLower (s : String) : String := ⟨s.data.map Char.toLower⟩

/-- `list(set(formats) - excluded_formats)` of bot.py line 79: duplicates
removed, denylisted extensions removed. -/
def finalFormats (registry : List RegEntry) : List String :=
  (collectFormats registry).eraseDups.filter
    (fun e => decide (e ∉ excluded_formats))

/-- `os.path.join(output_dir, f"{base_filename}.{ext}")` of bot.py line 85
for a relative directory without a trailing separator. -/
def outPath (output_dir base_filename ext : String) : String :=
  output_dir ++ "/" ++ base_filename ++ "." ++ ext

/-- The export loop of bot.py lines 81-93: skip any extension whose
lower-casing is `emb`, invoke the encoder for each remaining extension, and
collect the paths of the successful invocations, continuing past failures.
`writeOk` is the per-format encoder outcome. -/
def export_all_formats (writeOk : String → Bool) (registry : List RegEntry)
    (output_dir base_filename : String) : List String :=
  (finalFormats registry).foldl
    (fun acc ext =>
      if pyLower ext = "emb" then acc
      else if writeOk ext then acc ++ [outPath output_dir base_filename ext]
      else acc) []

lemma export_foldl (wo : String → Bool) (d b : String) (fmts : List String) :
    ∀ acc : List String,
      fmts.foldl
        (fun acc ext =>
          if pyLower ext = "emb" then acc
          else if wo ext then acc ++ [outPath d b ext]
          else acc) acc
        = acc ++ (fmts.filter
            (fun e => decide (pyLower e ≠ "emb") && wo e)).map (outPath d b) := by
  induction fmts with
  | nil => intro acc; simp
  | cons e tl ih =>
    intro acc
    simp only [List.foldl_cons, List.filter_cons]
    by_cases h1 : pyLower e = "emb"
    · rw [if_pos h1, ih acc]
      have hc : (decide (pyLower e ≠ "emb") && wo e) = false := by simp [h1]
      rw [hc]
      simp
    · by_cases h2 : wo e = true
      · rw [if_neg h1, if_pos h2, ih (acc ++ [outPath d b e])]
        have hc : (decide (pyLower e ≠ "emb") && wo e) = true := by simp [h1, h2]
        rw [hc]
        simp
      · rw [if_neg h1, if_neg h2, ih acc]
        have hw : wo e = false := by
          cases hwo : wo e
          · rfl
          · exact absurd hwo h2
        have hc : (decide (pyLower e ≠ "emb") && wo e) = false := by simp [hw]
        rw [hc]
        simp

lemma export_eq (wo : String → Bool) (registry : List RegEntry) (d b : String) :
    export_all_formats wo registry d b
      = ((finalFormats registry).filter
          (fun e => decide (pyLower e ≠ "emb") && wo e)).map (outPath d b) := by
  unfold export_all_formats
  rw [export_foldl wo d b (finalFormats registry) []]
  simp

lemma string_append_data (s t : String) : (s ++ t).data = s.data ++ t.data := rfl

lemma outPath_inj (d b e1 e2 : String)
    (h : outPath d b e1 = outPath d b e2) : e1 = e2 := by
  unfold outPath at h
  have h2 : (d ++ "/" ++ b ++ "." ++ e1).data = (d ++ "/" ++ b ++ "." ++ e2).data := by
    rw [h]
  simp only [string_append_data, List.append_assoc] at h2
  have h3 : e1.data = e2.data := by
    have := List.append_cancel_left
      (List.append_cancel_left (List.append_cancel_left (List.append_cancel_left h2)))
    exact this
  cases e1
  cases e2
  exact congrArg String.mk h3

lemma mem_export_iff (wo : String → Bool) (registry : List RegEntry)
    (d b e : String) :
    outPath d b e ∈ export_all_formats wo registry d b
      ↔ e ∈ finalFormats registry ∧ pyLower e ≠ "emb" ∧ wo e = true := by
  rw [export_eq]
  constructor
  · intro h
    obtain ⟨e2, he2, heq⟩ := List.mem_map.mp h
    have hee : e2 = e := outPath_inj d b e2 e heq
    subst hee
    rw [List.mem_filter] at he2
    have hcond := he2.2
    simp only [Bool.and_eq_true, decide_eq_true_eq] at hcond
    exact ⟨he2.1, hcond.1, hcond.2⟩
  · rintro ⟨h1, h2, h3⟩
    exact List.mem_map.mpr
      ⟨e, List.mem_filter.mpr ⟨h1, by simp [h2, h3]⟩, rfl⟩

/-- C4: whatever the registry contains, `export_all_formats` never writes an
artifact for the literal extension `emb` nor for any denylisted extension. -/
theorem export_never_denylisted (wo : String → Bool) (registry : List RegEntry)
    (output_dir base_filename : String) :
    outPath output_dir base_filename "emb"
        ∉ export_all_formats wo registry output_dir base_filename ∧
    ∀ x ∈ excluded_formats,
      outPath output_dir base_filename x
        ∉ export_all_formats wo registry output_dir base_filename := by
  constructor
  · intro hmem
    rw [mem_export_iff] at hmem
    exact hmem.2.1 (by decide)
  · intro x hx hmem
    rw [mem_export_iff] at hmem
    have h1 := hmem.1
    unfold finalFormats at h1
    rw [List.mem_filter] at h1
    have h2 := h1.2
    simp only [decide_eq_true_eq] at h2
    exact h2 hx

theorem export_never_denylisted_witness :
    ("col" ∈ excluded_formats) ∧
    (outPath "out" "base" "emb"
        ∉ export_all_formats (fun _ => true) [RegEntry.seqFirst "dst"] "out" "base" ∧
     outPath "out" "base" "col"
        ∉ export_all_formats (fun _ => true) [RegEntry.seqFirst "dst"] "out" "base") :=
  ⟨by decide,
   (export_never_denylisted (fun _ => true) [RegEntry.seqFirst "dst"] "out" "base").1,
   (export_never_denylisted (fun _ => true) [RegEntry.seqFirst "dst"] "out" "base").2
     "col" (by decide)⟩

/-- C6: forcing one format's encoder to fail changes nothing about any other
format's artifact: for every extension other than the failing one, its path
is in the batch with the forced failure exactly when it is in the batch
without it. -/
theorem export_failure_isolated (wo : String → Bool) (f : String)
    (registry : List RegEntry) (output_dir base_filename : String) :
    ∀ e, e ≠ f →
      (outPath output_dir base_filename e
          ∈ export_all_formats (fun x => if x = f then false else wo x)
              registry output_dir base_filename
        ↔ outPath output_dir base_filename e
          ∈ export_all_formats wo registry output_dir base_filename) := by
  intro e hef
  rw [mem_export_iff, mem_export_iff]
  rw [if_neg hef]

theorem export_failure_isolated_witness :
    ("dst" ≠ "pes") ∧
    (outPath "out" "base" "dst"
        ∈ export_all_formats (fun x => if x = "pes" then false else true)
            [RegEntry.seqFirst "dst", RegEntry.seqFirst "pes"] "out" "base"
      ↔ outPath "out" "base" "dst"
        ∈ export_all_formats (fun _ => true)
            [RegEntry.seqFirst "dst", RegEntry.seqFirst "pes"] "out" "base") :=
  ⟨by decide,
   export_failure_isolated (fun _ => true) "pes"
     [RegEntry.seqFirst "dst", RegEntry.seqFirst "pes"] "out" "base"
     "dst" (by decide)⟩

/-- C5 (amended): the only extension exclusion tied to the original/internal
format marker is the literal `emb` (compared case-insensitively); the actual
source file's extension is not consulted and is not removed. -/
theorem export_excludes_only_emb (wo : String → Bool) (registry : List RegEntry)
    (output_dir base_filename e : String) (h : pyLower e = "emb") :
    outPath output_dir base_filename e
      ∉ export_all_formats wo registry output_dir base_filename := by
  intro hmem
  rw [mem_export_iff] at hmem
  exact hmem.2.1 h

theorem export_excludes_only_emb_witness :
    (pyLower "EMB" = "emb") ∧
    outPath "out" "base" "EMB"
      ∉ export_all_formats (fun _ => true) [RegEntry.seqFirst "EMB"] "out" "base" :=
  ⟨by decide,
   export_excludes_only_emb (fun _ => true) [RegEntry.seqFirst "EMB"]
     "out" "base" "EMB" (by decide)⟩

/-
Processing pipeline and archive builder (bot.py `process_embroidery_file`,
lines 149-183) and the caller's outcome handling (lines 247-279).
The primary decoder `pyembroidery.read` is an external collaborator
(`decode(bytes) -> StitchPattern | failure`), modelled as an `Option`
argument; the filesystem contents at archive time are an oracle from path
to bytes.
-/

/-- `os.path.basename`: everything after the last `/`. -/
def basename (p : String) : String :=
  ⟨(p.data.reverse.takeWhile (fun c => c ≠ '/')).reverse⟩

/-- `os.path.splitext` (posix): split at the last dot of the basename,
unless every character before that dot within the basename is itself a dot
(leading dots never start an extension). -/
def splitext (p : String) : String × String :=
  let cs := p.data
  let base := (cs.reverse.takeWhile (fun c => c ≠ '/')).reverse
  let lead := base.takeWhile (fun c => c = '.')
  let stem := base.drop lead.length
  if stem.any (fun c => c = '.') then
    let tail := stem.reverse.takeWhile (fun c => c ≠ '.')
    (⟨cs.take (cs.length - tail.length - 1)⟩, ⟨'.' :: tail.reverse⟩)
  else (p, "")

/-- The archive buffer returned by `process_embroidery_file`: the zip
entries in insertion order and the buffer's byte position after the final
`seek(0)`. -/
structure ZipBuffer where
  entries : List (String × List Nat)
  pos : Nat
deriving DecidableEq, Repr

/-- The zip-writing loop of bot.py lines 174-176: each file path is stored
under its basename with the file's bytes (`contents` is the filesystem). -/
def buildZip (contents : String → List Nat) (paths : List String) :
    List (String × List Nat) :=
  paths.foldl (fun acc p => acc ++ [(basename p, contents p)]) []

/-- The preview image path of bot.py line 97. -/
def preview_path (output_dir base_filename : String) : String :=
  output_dir ++ "/" ++ base_filename ++ "_preview.png"

/-- `process_embroidery_file` (bot.py lines 149-183): try the primary
decoder, fall back to `read_emb` when it raises or returns `None`; when a
pattern was obtained, export all formats, render the preview, pack every
produced file plus the preview into an in-memory zip, rewind the buffer and
return it with the suggested `<base>.zip` name; otherwise return nothing. -/
def process_embroidery_file (primaryRead : Option EmbPattern)
    (fileBytes : List Nat) (writeOk : String → Bool)
    (registry : List RegEntry) (contents : String → List Nat)
    (temp_dir original_filename : String) : Option (ZipBuffer × String) :=
  let base_filename := (splitext original_filename).1
  let pattern :=
    match primaryRead with
    | some p => some p
    | none => read_emb fileBytes
  match pattern with
  | some _ =>
    let exported_files := export_all_formats writeOk registry temp_dir base_filename
      ++ [preview_path temp_dir base_filename]
    some (⟨buildZip contents exported_files, 0⟩, base_filename ++ ".zip")
  | none => none

/-- The user-visible outcome of `handle_document` (bot.py lines 247-279)
for a processing result. -/
inductive UserReply where
  | archiveSent (filename : String)
  | couldNotProcess
deriving DecidableEq, Repr

/-- bot.py lines 251-279: a returned buffer is sent to the user as a
document with the suggested name; a `None` result is reported as the
terminal could-not-process message. -/
def handleResult (res : Option (ZipBuffer × String)) : UserReply :=
  match res with
  | some (_, nm) => .archiveSent nm
  | none => .couldNotProcess

lemma buildZip_eq (contents : String → List Nat) (paths : List String) :
    buildZip contents paths = paths.map (fun p => (basename p, contents p)) := by
  unfold buildZip
  have gen : ∀ (l : List String) (acc : List (String × List Nat)),
      l.foldl (fun acc p => acc ++ [(basename p, contents p)]) acc
        = acc ++ l.map (fun p => (basename p, contents p)) := by
    intro l
    induction l with
    | nil => intro acc; simp
    | cons p tl ih => intro acc; simp [ih]
  simpa using gen paths []

/-- C7: the produced archive has exactly one entry per export artifact plus
one preview entry; each entry is named by the directory-stripped basename of
its source path and carries that file's exact bytes; the buffer is returned
rewound to position 0 together with the name `<original-base-name>.zip`. -/
theorem process_archive_contents (primaryRead : Option EmbPattern)
    (fileBytes : List Nat) (writeOk : String → Bool) (registry : List RegEntry)
    (contents : String → List Nat) (temp_dir original_filename : String)
    (zb : ZipBuffer) (nm : String)
    (h : process_embroidery_file primaryRead fileBytes writeOk registry
      contents temp_dir original_filename = some (zb, nm)) :
    zb.pos = 0 ∧
    nm = (splitext original_filename).1 ++ ".zip" ∧
    zb.entries
      = (export_all_formats writeOk registry temp_dir (splitext original_filename).1
          ++ [preview_path temp_dir (splitext original_filename).1]).map
          (fun p => (basename p, contents p)) ∧
    zb.entries.length
      = (export_all_formats writeOk registry temp_dir
          (splitext original_filename).1).length + 1 := by
  unfold process_embroidery_file at h
  rcases primaryRead with _ | p
  · rcases hf : read_emb fileBytes with _ | p
    · rw [hf] at h
      simp at h
    · rw [hf] at h
      simp only [Option.some.injEq, Prod.mk.injEq] at h
      obtain ⟨hzb, hnm⟩ := h
      refine ⟨?_, hnm.symm, ?_, ?_⟩
      · rw [← hzb]
      · rw [← hzb]
        exact buildZip_eq contents _
      · rw [← hzb]
        simp [buildZip_eq]
  · simp only [Option.some.injEq, Prod.mk.injEq] at h
    obtain ⟨hzb, hnm⟩ := h
    refine ⟨?_, hnm.symm, ?_, ?_⟩
    · rw [← hzb]
    · rw [← hzb]
      exact buildZip_eq contents _
    · rw [← hzb]
      simp [buildZip_eq]

theorem process_archive_contents_witness :
    process_embroidery_file (some ⟨[⟨0, 0, none⟩]⟩) [] (fun _ => true)
        [RegEntry.seqFirst "dst"] (fun _ => [7, 7]) "tmp" "design.pes"
      = some (⟨[("design.dst", [7, 7]), ("design_preview.png", [7, 7])], 0⟩,
          "design.zip") ∧
    (⟨[("design.dst", [7, 7]), ("design_preview.png", [7, 7])], 0⟩ : ZipBuffer).pos = 0 ∧
    ("design.zip" : String) = (splitext "design.pes").1 ++ ".zip" :=
  have hrun : process_embroidery_file (some ⟨[⟨0, 0, none⟩]⟩) [] (fun _ => true)
      [RegEntry.seqFirst "dst"] (fun _ => [7, 7]) "tmp" "design.pes"
      = some (⟨[("design.dst", [7, 7]), ("design_preview.png", [7, 7])], 0⟩,
          "design.zip") := by decide
  ⟨hrun,
   (process_archive_contents (some ⟨[⟨0, 0, none⟩]⟩) [] (fun _ => true)
      [RegEntry.seqFirst "dst"] (fun _ => [7, 7]) "tmp" "design.pes"
      _ _ hrun).1,
   (process_archive_contents (some ⟨[⟨0, 0, none⟩]⟩) [] (fun _ => true)
      [RegEntry.seqFirst "dst"] (fun _ => [7, 7]) "tmp" "design.pes"
      _ _ hrun).2.1⟩

/-- C9: when the primary decoder fails (raises or returns `None`) and the
fallback `read_emb` also fails, `process_embroidery_file` returns no result
instead of raising, the caller reports the terminal could-not-process
failure to the user, and no archive is produced. -/
theorem decode_failure_terminal (primaryRead : Option EmbPattern)
    (fileBytes : List Nat) (writeOk : String → Bool) (registry : List RegEntry)
    (contents : String → List Nat) (temp_dir original_filename : String)
    (hp : primaryRead = none) (hf : read_emb fileBytes = none) :
    process_embroidery_file primaryRead fileBytes writeOk registry contents
        temp_dir original_filename = none ∧
    handleResult (process_embroidery_file primaryRead fileBytes writeOk
        registry contents temp_dir original_filename)
      = UserReply.couldNotProcess := by
  subst hp
  have hnone : process_embroidery_file none fileBytes writeOk registry contents
      temp_dir original_filename = none := by
    unfold process_embroidery_file
    rw [hf]
  exact ⟨hnone, by rw [hnone]; rfl⟩

theorem decode_failure_terminal_witness :
    ((none : Option EmbPattern) = none ∧ read_emb [0] = none) ∧
    (process_embroidery_file none [0] (fun _ => true) [] (fun _ => [])
        "tmp" "a.emb" = none ∧
      handleResult (process_embroidery_file none [0] (fun _ => true) []
        (fun _ => []) "tmp" "a.emb") = UserReply.couldNotProcess) :=
  ⟨⟨rfl, by decide⟩,
   decode_failure_terminal none [0] (fun _ => true) [] (fun _ => [])
     "tmp" "a.emb" rfl (by decide)⟩

/-- C5, counterexample: a `.pes`-named input processed against a registry
offering `pes` yields a batch that does contain a `.pes` export — the
original source format's extension is not removed. -/
theorem export_self_format_occurs :
    process_embroidery_file (some ⟨[⟨0, 0, none⟩]⟩) [] (fun _ => true)
        [RegEntry.seqFirst "pes"] (fun _ => []) "tmp" "design.pes"
      = some (⟨[("design.pes", []), ("design_preview.png", [])], 0⟩,
          "design.zip") := by
  decide
